import Mathlib

/-!
Verification of the `Element` document-model core of the editablejs
repository (`src/packages/model/src/element.ts`) against its
natural-language specification.

The `Element` class extends a base `Node` class (file `node.ts`, not part
of the provided sources) and stores children that are either `Element`s or
text leaves (`text.ts`, also not provided).  Where a definition embeds
code from those missing files it is modelled from the specification and
is marked with a doc comment starting with "Modelled from the spec:".
Everything else is translated directly from `element.ts`.

Modelling conventions:
* JavaScript's mutable objects become pure values; a method that mutates
  `this` becomes a function returning the updated value.  Methods that do
  not mutate (such as `split`) simply return their results, so
  "the receiver is unchanged" is immediate in the embedding.
* Node keys are opaque; the external key-source collaborator is modelled
  by a counter threaded through every operation that may generate a key
  (`NodeKey.gen n` is the n-th generated key, `NodeKey.user s` is a key
  supplied by the caller).
* `Array.prototype.splice` / `slice` are embedded with their ECMAScript
  index semantics (negative indices count from the end, out-of-range
  indices clamp).
-/

/-- A node key.  Keys supplied by callers are `user s`; keys produced by
the external key-source collaborator (modelled by a counter) are `gen n`. -/
inductive NodeKey where
  | user (s : String)
  | gen (n : Nat)
deriving DecidableEq, Repr

/-- A style value: `ElementStyle = Record of string to (string or number)`. -/
inductive StyleVal where
  | str (s : String)
  | num (n : Int)
deriving DecidableEq, Repr

/-- A style map, as an association list of property name / value pairs. -/
abbrev ElementStyle := List (String × StyleVal)

/-- First-occurrence lookup in a style map (JavaScript object property access). -/
def styleLookup (st : ElementStyle) (k : String) : Option StyleVal :=
  (st.find? (fun p => p.1 == k)).map (·.2)

/-- lodash `isEqual` on two plain style objects: deep equality of the
key-to-value mappings, insensitive to property order.  (A JavaScript
object cannot hold a property name twice, so on the association lists
that embed such objects the first-occurrence lookups below read off the
unique bindings.) -/
def styleIsEqual (a b : ElementStyle) : Bool :=
  (a.all fun p => styleLookup b p.1 == styleLookup a p.1) &&
  (b.all fun p => styleLookup a p.1 == styleLookup b p.1)

/-- A serialized node / constructor-options object (`NodeObject` /
`ElementObject` / `NodeOptions` in the source).  One record covers the
element shape and the text-leaf shape, as JavaScript options objects are
duck-typed; fields irrelevant to a shape are ignored by its constructor. -/
inductive NodeOptions where
  | mk (key : Option NodeKey) (parent : Option NodeKey) (type : Option String)
      (text : String) (style : ElementStyle) (size : Nat)
      (children : List NodeOptions)

def NodeOptions.key : NodeOptions → Option NodeKey
  | .mk k _ _ _ _ _ _ => k

def NodeOptions.parent : NodeOptions → Option NodeKey
  | .mk _ p _ _ _ _ _ => p

def NodeOptions.type : NodeOptions → Option String
  | .mk _ _ t _ _ _ _ => t

def NodeOptions.text : NodeOptions → String
  | .mk _ _ _ tx _ _ _ => tx

def NodeOptions.style : NodeOptions → ElementStyle
  | .mk _ _ _ _ st _ _ => st

def NodeOptions.size : NodeOptions → Nat
  | .mk _ _ _ _ _ sz _ => sz

def NodeOptions.children : NodeOptions → List NodeOptions
  | .mk _ _ _ _ _ _ cs => cs

/-- `Object.assign(\x7b\x7d, options, \x7b key: undefined \x7d)` — the options with the
`key` field replaced. -/
def NodeOptions.withKey : NodeOptions → Option NodeKey → NodeOptions
  | .mk _ p t tx st sz cs, k => .mk k p t tx st sz cs

/-- A live node: either a text leaf (class `Text`, file not provided) or an
`Element`.  An `Element` instance carries its key, parent key, type tag,
style map and ordered children. -/
inductive Node where
  | text (key : NodeKey) (parent : Option NodeKey) (ty : String) (content : String)
  | element (key : NodeKey) (parent : Option NodeKey) (ty : String)
      (style : ElementStyle) (children : List Node)

/-- `getKey()`. -/
def Node.key : Node → NodeKey
  | .text k _ _ _ => k
  | .element k _ _ _ _ => k

/-- `getParentKey()`. -/
def Node.parentKey : Node → Option NodeKey
  | .text _ p _ _ => p
  | .element _ p _ _ _ => p

/-- The state of an `Element` instance. -/
structure Element where
  key : NodeKey
  parent : Option NodeKey
  ty : String
  style : ElementStyle
  children : List Node

/-- View an `Element` as a `Node`. -/
def Element.toNode (e : Element) : Node :=
  .element e.key e.parent e.ty e.style e.children

mutual

/-- `toJSON(includeChild = true)`.  The element branch is
`Element.toJSON`: the base attribute map, plus `children` (recursively
serialized when `includeChild`, otherwise the empty list) and `size` (the
true child count).  Modelled from the spec: the base `Node.toJSON`
(file `node.ts` not provided) emits the attribute map with at least
`key`, `type` and `parent`, and the snapshot format of §6 also carries
`style`; the text branch (`text.ts` not provided) additionally carries the
text content. -/
def Node.toJSON : Node → Bool → NodeOptions
  | .text k p t s, _ => .mk (some k) p (some t) s [] 0 []
  | .element k p t st cs, includeChild =>
      .mk (some k) p (some t) "" st cs.length
        (if includeChild then toJSONList cs else [])

/-- `children.map(child => child.toJSON())` — each child serialized with
`includeChild` defaulted to `true`. -/
def toJSONList : List Node → List NodeOptions
  | [] => []
  | c :: cs => Node.toJSON c true :: toJSONList cs

end

/-- `Element.toJSON(includeChild = true)` on an `Element` instance. -/
def Element.toJSON (e : Element) (includeChild : Bool) : NodeOptions :=
  Node.toJSON e.toNode includeChild

mutual

/-- `Node.create(options)` with the `parent` field of the options already
set to `par` (the constructors read the parent from the options object).
Dispatch is `Element.isElementObject`: the descriptor builds an `Element`
iff its `type` is not `DATA_TYPE_TEXT` (the string "text").
The element branch is the `Element` constructor from the source:
`type` defaults to `DATA_TYPE_ELEMENT` ("element"), and each child
descriptor gets its `parent` field stamped to the new element's key before
being dispatch-constructed.  Modelled from the spec: the base `Node`
constructor (file `node.ts` not provided) takes the key from the options,
generating a fresh one when absent, and reads `parent`; the descriptor's
style map (defaults empty) becomes the element's style; the `Text`
constructor (file `text.ts` not provided) defaults `type` to "text" and
stores the text content. -/
def constructWith : NodeOptions → Option NodeKey → Nat → Node × Nat
  | .mk k _ t tx st _ cs, par, ctr =>
      if t ≠ some "text" then
        let key := k.getD (NodeKey.gen ctr)
        let ctr1 := if k.isNone then ctr + 1 else ctr
        let (children, ctr2) := constructList cs key ctr1
        (.element key par (t.getD "element") st children, ctr2)
      else
        (.text (k.getD (NodeKey.gen ctr)) par (t.getD "text") tx,
         if k.isNone then ctr + 1 else ctr)

/-- Construction of the children of a new element with key `pk`:
`options.children.map(child => \x7b child.parent = this.getKey();
return Element.createChildNode(child) \x7d)`, with the key-source counter
threaded left to right. -/
def constructList : List NodeOptions → NodeKey → Nat → List Node × Nat
  | [], _, ctr => ([], ctr)
  | o :: os, pk, ctr =>
      let (n, c1) := constructWith o (some pk) ctr
      let (ns, c2) := constructList os pk c1
      (n :: ns, c2)

end

/-- `Node.create(options)`: polymorphic dispatch on the type tag. -/
def Node.create (o : NodeOptions) (ctr : Nat) : Node × Nat :=
  constructWith o o.parent ctr

/-- `new Element(options)` / `Element.create(options)`: always the
`Element` constructor, with no dispatch on the type tag.  Its body is the
element branch of `constructWith`. -/
def Element.create (o : NodeOptions) (ctr : Nat) : Element × Nat :=
  match o with
  | .mk k p t _ st _ cs =>
      let key := k.getD (NodeKey.gen ctr)
      let ctr1 := if k.isNone then ctr + 1 else ctr
      let (children, ctr2) := constructList cs key ctr1
      ({ key := key, parent := p, ty := t.getD "element", style := st,
         children := children }, ctr2)

/-- `Element.createChildNode(Object.assign(\x7b\x7d, child.toJSON(),
\x7b parent: pk \x7d))`: the child re-derived from its own (deep) serialized
form with `parent` overwritten, then dispatch-constructed. -/
def createChild (c : Node) (pk : NodeKey) (ctr : Nat) : Node × Nat :=
  constructWith (c.toJSON true) (some pk) ctr

/-- `getChildrenSize()`. -/
def Element.getChildrenSize (e : Element) : Nat :=
  e.children.length

/-- `getChildrenKeys()`. -/
def Element.getChildrenKeys (e : Element) : List NodeKey :=
  e.children.map Node.key

/-- `appendChild(child)`. -/
def Element.appendChild (e : Element) (child : Node) (ctr : Nat) : Element × Nat :=
  let (n, ctr') := createChild child e.key ctr
  ({ e with children := e.children ++ [n] }, ctr')

/-- `children.forEach(child => clone.appendChild(child))`. -/
def appendAll (e : Element) (cs : List Node) (ctr : Nat) : Element × Nat :=
  match cs with
  | [] => (e, ctr)
  | c :: rest =>
      let (e1, c1) := e.appendChild c ctr
      appendAll e1 rest c1

/-- `removeChild(key)`: locate the first child with the key (`findIndex`);
if absent do nothing, otherwise `splice` it out. -/
def Element.removeChild (e : Element) (k : NodeKey) : Element :=
  match e.children.findIdx? (fun c => c.key == k) with
  | none => e
  | some i => { e with children := e.children.eraseIdx i }

/-- `hasChild(key)`. -/
def Element.hasChild (e : Element) (k : NodeKey) : Bool :=
  e.children.any (fun c => c.key == k)

/-- The ECMAScript `Array.prototype.splice` start-index normalization:
a negative index counts from the end (floored at 0), an index past the
end clamps to the length. -/
def spliceIndex (len : Nat) (i : Int) : Nat :=
  if i < 0 then (max ((len : Int) + i) 0).toNat else min i.toNat len

/-- The reconstruction of the inserted children in `insert`:
`child.map(c => Element.createChildNode(Object.assign(\x7b\x7d, c.toJSON(),
\x7b parent: this.getKey() \x7d)))`, counter threaded left to right. -/
def reconstructChildren (cs : List Node) (pk : NodeKey) (ctr : Nat) : List Node × Nat :=
  match cs with
  | [] => ([], ctr)
  | c :: rest =>
      let (n, c1) := createChild c pk ctr
      let (ns, c2) := reconstructChildren rest pk c1
      (n :: ns, c2)

/-- `insert(index, ...child)`: `this.children.splice(index, 0, ...)` with
the reconstructed children. -/
def Element.insert (e : Element) (i : Int) (cs : List Node) (ctr : Nat) : Element × Nat :=
  let (ns, ctr') := reconstructChildren cs e.key ctr
  let pos := spliceIndex e.children.length i
  ({ e with children := e.children.take pos ++ ns ++ e.children.drop pos }, ctr')

/-- `split(offset)`: clamp the offset to `[0, size]`, partition the
children with `slice`, rebuild a left clone from `toJSON(false)` (same
key) and a right clone from the same JSON with `key: undefined` (fresh
key), re-appending the respective children.  The receiver is not
mutated (`slice` copies), which in this pure embedding is reflected by
`split` returning only the two clones. -/
def Element.split (e : Element) (offset : Int) (ctr : Nat) :
    (Element × Element) × Nat :=
  let size := e.getChildrenSize
  let off : Nat := if offset < 0 then 0 else min offset.toNat size
  let left := e.children.take off
  let right := e.children.drop off
  let json := e.toJSON false
  let (cl0, ctr1) := Element.create json ctr
  let (cloneLeft, ctr2) := appendAll cl0 left ctr1
  let (cr0, ctr3) := Element.create (json.withKey none) ctr2
  let (cloneRight, ctr4) := appendAll cr0 right ctr3
  ((cloneLeft, cloneRight), ctr4)

/-- `empty()`. -/
def Element.empty (e : Element) : Element :=
  { e with children := [] }

mutual

/-- `isEmpty()`: for an element, true when there are no children or every
child is itself recursively empty.  Modelled from the spec: the text
leaf's `isEmpty` (file `text.ts` not provided) holds iff its content is
the empty string (§4.1 leaf contract). -/
def Node.isEmpty : Node → Bool
  | .text _ _ _ s => s == ""
  | .element _ _ _ _ cs => cs.length == 0 || isEmptyAll cs

/-- `this.children.every(child => child.isEmpty())`. -/
def isEmptyAll : List Node → Bool
  | [] => true
  | c :: cs => Node.isEmpty c && isEmptyAll cs

end

mutual

/-- `contains(...keys)`: false on an empty key set; otherwise scan the
children in order, succeeding on a child whose key is in the set or on an
element child whose own `contains` succeeds.  A text leaf has no
`contains`; the source only recurses into children passing the
`Element.isElement` instance check. -/
def Node.containsKeys : Node → List NodeKey → Bool
  | .text _ _ _ _, _ => false
  | .element _ _ _ _ cs, keys =>
      if keys.isEmpty then false else containsList cs keys

/-- The `for (const child of this.children)` loop of `contains`. -/
def containsList : List Node → List NodeKey → Bool
  | [], _ => false
  | c :: cs, keys =>
      keys.contains c.key || Node.containsKeys c keys || containsList cs keys

end

/-- `contains(...keys)` on an `Element` instance. -/
def Element.contains (e : Element) (keys : List NodeKey) : Bool :=
  e.toNode.containsKeys keys

mutual

/-- `compare(node)`.  For an element: false unless `node` is an element
(`Element.isElement` check), the base `Node` comparison succeeds, the
style maps are `isEqual`, and the child counts agree; then every child of
`this` must find (by `findIndex` on keys, i.e. the first child of `node`
with the same key) a partner that compares equal.  Modelled from the
spec: the base `Node.compare` (file `node.ts` not provided) is
content equality excluding the key, i.e. equality of the type tags; the
text leaf's `compare` (file `text.ts` not provided) additionally requires
equal text content. -/
def Node.compare : Node → Node → Bool
  | .text _ _ t s, other =>
      match other with
      | .text _ _ t' s' => t == t' && s == s'
      | .element _ _ _ _ _ => false
  | .element _ _ t st cs, other =>
      match other with
      | .text _ _ _ _ => false
      | .element _ _ t' st' cs' =>
          t == t' && styleIsEqual st st' && cs'.length == cs.length &&
            compareChildren cs cs'

/-- `this.children.every(child => ...)`: each child of `this` looks up the
first child of `others` with its key and compares against it. -/
def compareChildren : List Node → List Node → Bool
  | [], _ => true
  | c :: rest, others =>
      (match others.find? (fun c2 => c2.key == c.key) with
       | none => false
       | some c2 => Node.compare c c2) && compareChildren rest others

end

/-- `compare` on `Element` instances. -/
def Element.compare (e : Element) (other : Element) : Bool :=
  Node.compare e.toNode other.toNode

mutual

/-- All keys of direct or transitive descendants of a node (the search
space of `contains`), in document order. -/
def Node.descKeys : Node → List NodeKey
  | .text _ _ _ _ => []
  | .element _ _ _ _ cs => descKeysList cs

/-- Descendant keys of a list of siblings, in document order. -/
def descKeysList : List Node → List NodeKey
  | [] => []
  | c :: cs => c.key :: (c.descKeys ++ descKeysList cs)

end

/-- `isEmpty()` on an `Element` instance. -/
def Element.isEmpty (e : Element) : Bool :=
  e.toNode.isEmpty

mutual

/-- The class invariant relating a node's constructor to its type tag:
every `Text` instance carries the "text" tag and every `Element` instance
carries a tag other than "text".  It holds for every node produced by the
polymorphic dispatch path (`Node.create`, hence for every child ever
stored by the constructor, `appendChild` or `insert`). -/
def Node.wfTags : Node → Bool
  | .text _ _ t _ => t == "text"
  | .element _ _ t _ cs => (t != "text") && wfTagsList cs

/-- `wfTags` for every node of a list. -/
def wfTagsList : List Node → Bool
  | [] => true
  | c :: cs => c.wfTags && wfTagsList cs

end

/-- The keys of the nodes of a list are pairwise distinct. -/
def nodupKeysB : List Node → Bool
  | [] => true
  | c :: cs => cs.all (fun c2 => c2.key != c.key) && nodupKeysB cs

mutual

/-- At every element of the tree, the children's keys are pairwise
distinct. -/
def Node.nodupDeep : Node → Bool
  | .text _ _ _ _ => true
  | .element _ _ _ _ cs => nodupKeysB cs && nodupDeepList cs

/-- `nodupDeep` for every node of a list. -/
def nodupDeepList : List Node → Bool
  | [] => true
  | c :: cs => c.nodupDeep && nodupDeepList cs

end

/-- `nodupDeep` on an `Element` instance: no duplicate keys among the
children, at any depth. -/
def Element.nodupDeep (e : Element) : Bool :=
  nodupKeysB e.children && nodupDeepList e.children

/-- Induction over the node tree: the motive propagates to every child of
an element. -/
theorem Node.treeInduction {motive : Node → Prop}
    (htext : ∀ k p t s, motive (.text k p t s))
    (helem : ∀ k p t st cs, (∀ c ∈ cs, motive c) →
      motive (.element k p t st cs)) :
    ∀ n, motive n := fun n =>
  @Node.rec motive (fun cs => ∀ c ∈ cs, motive c)
    htext helem
    (by intro c hc; cases hc)
    (fun c cs hc hcs x hx => by
      rcases List.mem_cons.mp hx with h | h
      · exact h ▸ hc
      · exact hcs x h)
    n

theorem toJSON_key (n : Node) (b : Bool) : (n.toJSON b).key = some n.key := by
  cases n <;> rfl

theorem constructList_nil (pk : NodeKey) (ctr : Nat) :
    constructList [] pk ctr = ([], ctr) := rfl

theorem constructList_cons (o : NodeOptions) (os : List NodeOptions)
    (pk : NodeKey) (ctr : Nat) :
    constructList (o :: os) pk ctr =
      ((constructWith o (some pk) ctr).1 ::
        (constructList os pk (constructWith o (some pk) ctr).2).1,
       (constructList os pk (constructWith o (some pk) ctr).2).2) := rfl

/-- Reconstructing any node from its own (deep) serialized form never
generates a key (the serialized form carries one), preserves the node's
key, and gives the new node the requested parent. -/
theorem constructWith_toJSON_spec :
    ∀ n : Node, ∀ par ctr,
      (constructWith (n.toJSON true) par ctr).2 = ctr ∧
      (constructWith (n.toJSON true) par ctr).1.key = n.key ∧
      (constructWith (n.toJSON true) par ctr).1.parentKey = par := by
  intro n
  induction n using Node.treeInduction with
  | htext k p t s =>
      intro par ctr
      by_cases h : t = "text" <;>
        simp [Node.toJSON, constructWith, constructList, h, Node.key, Node.parentKey]
  | helem k p t st cs ih =>
      intro par ctr
      by_cases h : t = "text"
      · simp [Node.toJSON, constructWith, h, Node.key, Node.parentKey]
      · have hlist : ∀ (l : List Node),
            (∀ c ∈ l, ∀ par' ctr',
              (constructWith (c.toJSON true) par' ctr').2 = ctr') →
            ∀ pk ctr', (constructList (toJSONList l) pk ctr').2 = ctr' := by
          intro l
          induction l with
          | nil => intro _ pk ctr'; rfl
          | cons c rest ihl =>
              intro H pk ctr'
              simp only [toJSONList, constructList_cons]
              rw [H c (List.mem_cons_self c rest) (some pk) ctr']
              exact ihl (fun x hx => H x (List.mem_cons_of_mem c hx)) pk ctr'
        have hl := hlist cs (fun c hc => (fun par' ctr' => (ih c hc par' ctr').1)) k ctr
        simp [Node.toJSON, constructWith, h, Node.key, Node.parentKey, hl]

/-- `createChild` preserves the child's key, stamps the requested parent
key, and leaves the key counter unchanged. -/
theorem createChild_spec (c : Node) (pk : NodeKey) (ctr : Nat) :
    (createChild c pk ctr).2 = ctr ∧
    (createChild c pk ctr).1.key = c.key ∧
    (createChild c pk ctr).1.parentKey = some pk :=
  constructWith_toJSON_spec c (some pk) ctr

/-- `reconstructChildren` (the per-child reconstruction of `insert`, and
of the `forEach`/`appendChild` loops of `split`) preserves the list of
keys, stamps the parent key on every node, and leaves the counter
unchanged. -/
theorem reconstructChildren_spec (cs : List Node) (pk : NodeKey) (ctr : Nat) :
    (reconstructChildren cs pk ctr).2 = ctr ∧
    (reconstructChildren cs pk ctr).1.map Node.key = cs.map Node.key ∧
    (∀ n ∈ (reconstructChildren cs pk ctr).1, n.parentKey = some pk) := by
  induction cs with
  | nil => exact ⟨rfl, rfl, by intro n hn; cases hn⟩
  | cons c rest ih =>
      obtain ⟨h1, h2, h3⟩ := createChild_spec c pk ctr
      obtain ⟨i1, i2, i3⟩ := ih
      constructor
      · show (reconstructChildren rest pk (createChild c pk ctr).2).2 = ctr
        rw [h1]; exact i1
      constructor
      · show (createChild c pk ctr).1.key ::
          (reconstructChildren rest pk (createChild c pk ctr).2).1.map Node.key
            = c.key :: rest.map Node.key
        rw [h1, h2, i2]
      · intro n hn
        simp only [createChild] at h1
        rcases List.mem_cons.mp hn with h | h
        · rw [h] at *; exact h3
        · rw [h1] at h; exact i3 n h

/-- The appended children of `insert` and of `split`'s `forEach` loops are
built by the same reconstruction. -/
theorem reconstructChildren_eq_constructList (cs : List Node) (pk : NodeKey)
    (ctr : Nat) :
    reconstructChildren cs pk ctr = constructList (toJSONList cs) pk ctr := by
  induction cs generalizing ctr with
  | nil => rfl
  | cons c rest ih =>
      simp only [reconstructChildren, toJSONList, constructList_cons, createChild]
      rw [ih]

/-- The `forEach`/`appendChild` loop appends exactly the reconstructed
children (with the receiver's key as parent) and leaves the counter
unchanged. -/
theorem appendAll_eq (cs : List Node) (e : Element) (ctr : Nat) :
    appendAll e cs ctr =
      ({ e with children := e.children ++ (reconstructChildren cs e.key ctr).1 },
       ctr) := by
  induction cs generalizing e ctr with
  | nil => simp [appendAll, reconstructChildren]
  | cons c rest ih =>
      obtain ⟨h1, _, _⟩ := createChild_spec c e.key ctr
      simp only [appendAll, Element.appendChild]
      rw [ih]
      simp only [reconstructChildren, h1]
      simp [List.append_assoc]

theorem reconstructChildren_length (cs : List Node) (pk : NodeKey) (ctr : Nat) :
    (reconstructChildren cs pk ctr).1.length = cs.length := by
  have h := (reconstructChildren_spec cs pk ctr).2.1
  have := congrArg List.length h
  simpa using this

theorem create_toJSON_false (e : Element) (ctr : Nat) :
    Element.create (e.toJSON false) ctr =
      ({ key := e.key, parent := e.parent, ty := e.ty, style := e.style,
         children := [] }, ctr) := rfl

theorem create_toJSON_false_keyless (e : Element) (ctr : Nat) :
    Element.create ((e.toJSON false).withKey none) ctr =
      ({ key := .gen ctr, parent := e.parent, ty := e.ty, style := e.style,
         children := [] }, ctr + 1) := rfl

/-- Closed form of `split`: the left clone keeps the key and receives the
reconstruction of the first `offset` (clamped) children, the right clone
gets the freshly generated key and the reconstruction of the rest. -/
theorem split_eq (e : Element) (offset : Int) (ctr : Nat) :
    e.split offset ctr =
      (({ key := e.key, parent := e.parent, ty := e.ty, style := e.style,
          children := (reconstructChildren
            (e.children.take (if offset < 0 then 0 else min offset.toNat e.children.length))
            e.key ctr).1 },
        { key := .gen ctr, parent := e.parent, ty := e.ty, style := e.style,
          children := (reconstructChildren
            (e.children.drop (if offset < 0 then 0 else min offset.toNat e.children.length))
            (.gen ctr) (ctr + 1)).1 }),
       ctr + 1) := by
  have hL := appendAll_eq
    (e.children.take (if offset < 0 then 0 else min offset.toNat e.children.length))
    ({ key := e.key, parent := e.parent, ty := e.ty, style := e.style,
       children := [] } : Element) ctr
  have hR := appendAll_eq
    (e.children.drop (if offset < 0 then 0 else min offset.toNat e.children.length))
    ({ key := .gen ctr, parent := e.parent, ty := e.ty, style := e.style,
       children := [] } : Element) (ctr + 1)
  simp only [Element.split, Element.getChildrenSize, create_toJSON_false,
    create_toJSON_false_keyless, hL, hR, List.nil_append]

/-- C1: for every Element E and every offset in [0, E.getChildrenSize()],
split(offset) returns a pair [left, right] such that
left.getChildrenSize() + right.getChildrenSize() == E.getChildrenSize(),
and the concatenation of left.getChildrenKeys() followed by
right.getChildrenKeys() equals E.getChildrenKeys(). -/
theorem split_partition (E : Element) (offset : Int) (ctr : Nat)
    (h0 : 0 ≤ offset) (h1 : offset ≤ (E.getChildrenSize : Int)) :
    (E.split offset ctr).1.1.getChildrenSize + (E.split offset ctr).1.2.getChildrenSize
        = E.getChildrenSize ∧
    (E.split offset ctr).1.1.getChildrenKeys ++ (E.split offset ctr).1.2.getChildrenKeys
        = E.getChildrenKeys := by
  rw [split_eq]
  simp only [Element.getChildrenSize, Element.getChildrenKeys]
  constructor
  · rw [reconstructChildren_length, reconstructChildren_length]
    simp only [List.length_take, List.length_drop]
    omega
  · rw [(reconstructChildren_spec _ _ _).2.1, (reconstructChildren_spec _ _ _).2.1]
    rw [← List.map_append, List.take_append_drop]

theorem split_partition_witness :
    (0:Int) ≤ 1 ∧
    (1:Int) ≤ ((Element.mk (.user "e") none "element" []
      [.text (.user "a") (some (.user "e")) "text" "x",
       .text (.user "b") (some (.user "e")) "text" "y",
       .text (.user "c") (some (.user "e")) "text" "z"]).getChildrenSize : Int) ∧
    (((Element.mk (.user "e") none "element" []
      [.text (.user "a") (some (.user "e")) "text" "x",
       .text (.user "b") (some (.user "e")) "text" "y",
       .text (.user "c") (some (.user "e")) "text" "z"]).split 1 0).1.1.getChildrenSize +
     ((Element.mk (.user "e") none "element" []
      [.text (.user "a") (some (.user "e")) "text" "x",
       .text (.user "b") (some (.user "e")) "text" "y",
       .text (.user "c") (some (.user "e")) "text" "z"]).split 1 0).1.2.getChildrenSize
        = (Element.mk (.user "e") none "element" []
      [.text (.user "a") (some (.user "e")) "text" "x",
       .text (.user "b") (some (.user "e")) "text" "y",
       .text (.user "c") (some (.user "e")) "text" "z"]).getChildrenSize ∧
     ((Element.mk (.user "e") none "element" []
      [.text (.user "a") (some (.user "e")) "text" "x",
       .text (.user "b") (some (.user "e")) "text" "y",
       .text (.user "c") (some (.user "e")) "text" "z"]).split 1 0).1.1.getChildrenKeys ++
     ((Element.mk (.user "e") none "element" []
      [.text (.user "a") (some (.user "e")) "text" "x",
       .text (.user "b") (some (.user "e")) "text" "y",
       .text (.user "c") (some (.user "e")) "text" "z"]).split 1 0).1.2.getChildrenKeys
        = (Element.mk (.user "e") none "element" []
      [.text (.user "a") (some (.user "e")) "text" "x",
       .text (.user "b") (some (.user "e")) "text" "y",
       .text (.user "c") (some (.user "e")) "text" "z"]).getChildrenKeys) :=
  ⟨by decide, by decide, split_partition _ 1 0 (by decide) (by decide)⟩

/-- C2: split(offset) does not mutate E (immediate here: the embedding of
split is a pure function of E returning only the clone pair, because the
source body only reads E — slice, toJSON — and mutates the clones).  The
returned cloneLeft has E's key; cloneRight's key is freshly generated and
(by the key-source uniqueness contract, expressed by the hypothesis)
differs from E's; every child stored in either clone has that clone's key
as its parentKey; out-of-range offsets are clamped to [0, size]. -/
theorem split_clone_keys (E : Element) (offset : Int) (ctr : Nat)
    (hfresh : NodeKey.gen ctr ≠ E.key) :
    (E.split offset ctr).1.1.key = E.key ∧
    (E.split offset ctr).1.2.key = NodeKey.gen ctr ∧
    (E.split offset ctr).1.2.key ≠ E.key ∧
    (∀ c ∈ (E.split offset ctr).1.1.children,
        c.parentKey = some (E.split offset ctr).1.1.key) ∧
    (∀ c ∈ (E.split offset ctr).1.2.children,
        c.parentKey = some (E.split offset ctr).1.2.key) ∧
    E.split offset ctr = E.split (max 0 (min offset (E.getChildrenSize : Int))) ctr := by
  have hoff : (if offset < 0 then 0 else min offset.toNat E.children.length)
      = (if (max 0 (min offset (E.getChildrenSize : Int))) < 0 then 0
         else min (max 0 (min offset (E.getChildrenSize : Int))).toNat E.children.length) := by
    simp only [Element.getChildrenSize]
    split_ifs <;> omega
  rw [split_eq, split_eq, hoff]
  refine ⟨rfl, rfl, hfresh, ?_, ?_, rfl⟩
  · exact fun c hc => (reconstructChildren_spec _ _ _).2.2 c hc
  · exact fun c hc => (reconstructChildren_spec _ _ _).2.2 c hc

theorem split_clone_keys_witness :
    NodeKey.gen 0 ≠ NodeKey.user "e" ∧
    (((Element.mk (.user "e") none "element" []
      [.text (.user "a") (some (.user "e")) "text" "x",
       .text (.user "b") (some (.user "e")) "text" "y"]).split 7 0).1.1.key
        = NodeKey.user "e" ∧
     ((Element.mk (.user "e") none "element" []
      [.text (.user "a") (some (.user "e")) "text" "x",
       .text (.user "b") (some (.user "e")) "text" "y"]).split 7 0).1.2.key
        = NodeKey.gen 0) := by
  have h := split_clone_keys (Element.mk (.user "e") none "element" []
      [.text (.user "a") (some (.user "e")) "text" "x",
       .text (.user "b") (some (.user "e")) "text" "y"]) 7 0 (by decide)
  exact ⟨by decide, h.1, h.2.1⟩

theorem findIdx?_none_of_all {cs : List Node} {k : NodeKey}
    (h : ∀ c ∈ cs, c.key ≠ k) :
    ∀ i, List.findIdx? (fun c => c.key == k) cs i = none := by
  induction cs with
  | nil => intro i; rfl
  | cons c rest ih =>
      intro i
      rw [List.findIdx?_cons]
      have hc : (c.key == k) = false := by
        simpa using h c (List.mem_cons_self c rest)
      rw [hc]
      simp only [Bool.false_eq_true, if_false]
      exact ih (fun x hx => h x (List.mem_cons_of_mem c hx)) (i + 1)

theorem findIdx?_first_match {l r : List Node} {c : Node} {k : NodeKey}
    (hc : c.key = k) (hl : ∀ c' ∈ l, c'.key ≠ k) :
    ∀ i, List.findIdx? (fun x => x.key == k) (l ++ c :: r) i = some (i + l.length) := by
  induction l generalizing r with
  | nil =>
      intro i
      simp only [List.nil_append, List.findIdx?_cons]
      rw [if_pos (by simpa using hc)]
      simp
  | cons a rest ih =>
      intro i
      simp only [List.cons_append, List.findIdx?_cons]
      have ha : (a.key == k) = false := by
        simpa using hl a (List.mem_cons_self a rest)
      rw [ha]
      simp only [Bool.false_eq_true, if_false]
      rw [ih (fun x hx => hl x (List.mem_cons_of_mem a hx)) (i + 1)]
      simp only [List.length_cons]
      congr 1
      omega

theorem eraseIdx_middle (l r : List Node) (c : Node) :
    (l ++ c :: r).eraseIdx l.length = l ++ r := by
  induction l with
  | nil => rfl
  | cons a rest ih =>
      simp only [List.cons_append, List.length_cons, List.eraseIdx_cons_succ, ih]

/-- C5: removeChild(key) is a no-op when no child has the key; otherwise
exactly the first child with that key is removed and the relative order
of the remaining children is preserved.  The removed child's own
parentKey is untouched: `removeChild` only splices the child out of the
list and never writes to the removed node (in this pure embedding the
removed node value `c` is simply no longer referenced, unchanged). -/
theorem removeChild_spec (E : Element) (k : NodeKey) :
    ((∀ c ∈ E.children, c.key ≠ k) → E.removeChild k = E) ∧
    (∀ (l r : List Node) (c : Node), E.children = l ++ c :: r → c.key = k →
      (∀ c' ∈ l, c'.key ≠ k) → (E.removeChild k).children = l ++ r) := by
  constructor
  · intro h
    simp only [Element.removeChild]
    rw [findIdx?_none_of_all h 0]
  · intro l r c hsplit hc hl
    simp only [Element.removeChild, hsplit]
    rw [findIdx?_first_match hc hl 0]
    simp only [Nat.zero_add]
    exact eraseIdx_middle l r c

theorem removeChild_spec_witness :
    ((Element.mk (.user "e") none "element" []
      [.text (.user "a") (some (.user "e")) "text" "x",
       .text (.user "b") (some (.user "e")) "text" "y",
       .text (.user "c") (some (.user "e")) "text" "z"]).removeChild
        (.user "b")).children
      = [.text (.user "a") (some (.user "e")) "text" "x",
         .text (.user "c") (some (.user "e")) "text" "z"] ∧
    (Element.mk (.user "e") none "element" []
      [.text (.user "a") (some (.user "e")) "text" "x",
       .text (.user "b") (some (.user "e")) "text" "y",
       .text (.user "c") (some (.user "e")) "text" "z"]).removeChild
        (.user "z")
      = Element.mk (.user "e") none "element" []
      [.text (.user "a") (some (.user "e")) "text" "x",
       .text (.user "b") (some (.user "e")) "text" "y",
       .text (.user "c") (some (.user "e")) "text" "z"] := by
  constructor
  · exact (removeChild_spec (Element.mk (.user "e") none "element" []
      [.text (.user "a") (some (.user "e")) "text" "x",
       .text (.user "b") (some (.user "e")) "text" "y",
       .text (.user "c") (some (.user "e")) "text" "z"]) (.user "b")).2
      [.text (.user "a") (some (.user "e")) "text" "x"]
      [.text (.user "c") (some (.user "e")) "text" "z"]
      (.text (.user "b") (some (.user "e")) "text" "y")
      rfl rfl (by intro c' hc'; fin_cases hc' <;> decide)
  · exact (removeChild_spec (Element.mk (.user "e") none "element" []
      [.text (.user "a") (some (.user "e")) "text" "x",
       .text (.user "b") (some (.user "e")) "text" "y",
       .text (.user "c") (some (.user "e")) "text" "z"]) (.user "z")).1
      (by intro c' hc'; fin_cases hc' <;> decide)

/-- C7: insert(offset, ...children) inserts freshly reconstructed copies
of the given children at the given position, preserving the order of the
existing children around the insertion point; each inserted copy keeps
its source's key and gets the Element's key as parentKey. -/
theorem insert_at (E : Element) (xs : List Node) (o : Int) (ctr : Nat)
    (h0 : 0 ≤ o) (h1 : o ≤ (E.getChildrenSize : Int)) :
    (E.insert o xs ctr).1.children
        = E.children.take o.toNat ++ (reconstructChildren xs E.key ctr).1
          ++ E.children.drop o.toNat ∧
    (reconstructChildren xs E.key ctr).1.map Node.key = xs.map Node.key ∧
    ∀ n ∈ (reconstructChildren xs E.key ctr).1, n.parentKey = some E.key := by
  have hpos : spliceIndex E.children.length o = o.toNat := by
    simp only [Element.getChildrenSize] at h1
    simp only [spliceIndex]
    split_ifs <;> omega
  refine ⟨?_, (reconstructChildren_spec xs E.key ctr).2.1,
    (reconstructChildren_spec xs E.key ctr).2.2⟩
  show E.children.take (spliceIndex E.children.length o)
      ++ (reconstructChildren xs E.key ctr).1
      ++ E.children.drop (spliceIndex E.children.length o) = _
  rw [hpos]

theorem insert_at_witness :
    (((Element.mk (.user "e") none "element" []
      [.text (.user "a") (some (.user "e")) "text" "x",
       .text (.user "c") (some (.user "e")) "text" "z"]).insert 1
        [.text (.user "x") none "text" "w"] 0).1.children
      = (Element.mk (.user "e") none "element" []
      [.text (.user "a") (some (.user "e")) "text" "x",
       .text (.user "c") (some (.user "e")) "text" "z"]).children.take 1
        ++ (reconstructChildren [.text (.user "x") none "text" "w"] (.user "e") 0).1
        ++ (Element.mk (.user "e") none "element" []
      [.text (.user "a") (some (.user "e")) "text" "x",
       .text (.user "c") (some (.user "e")) "text" "z"]).children.drop 1) ∧
    (reconstructChildren [.text (.user "x") none "text" "w"] (.user "e") 0).1.map Node.key
      = [NodeKey.user "x"] ∧
    ∀ n ∈ (reconstructChildren [.text (.user "x") none "text" "w"] (.user "e") 0).1,
      n.parentKey = some (.user "e") :=
  insert_at (Element.mk (.user "e") none "element" []
      [.text (.user "a") (some (.user "e")) "text" "x",
       .text (.user "c") (some (.user "e")) "text" "z"])
    [.text (.user "x") none "text" "w"] 1 0 (by decide) (by decide)

/-- C10 (implicit): insert applies the ECMAScript Array.splice index
semantics to out-of-range offsets: a negative offset is interpreted as
size + offset floored at 0 (so it counts from the end rather than
clamping to 0), and an offset greater than the child count appends at the
end. -/
theorem insert_splice_semantics (E : Element) (xs : List Node) (i : Int) (ctr : Nat) :
    (i < 0 → (E.insert i xs ctr).1.children
        = E.children.take (max ((E.getChildrenSize : Int) + i) 0).toNat
          ++ (reconstructChildren xs E.key ctr).1
          ++ E.children.drop (max ((E.getChildrenSize : Int) + i) 0).toNat) ∧
    ((E.getChildrenSize : Int) < i → (E.insert i xs ctr).1.children
        = E.children ++ (reconstructChildren xs E.key ctr).1) := by
  constructor
  · intro h
    have hpos : spliceIndex E.children.length i
        = (max ((E.getChildrenSize : Int) + i) 0).toNat := by
      simp only [spliceIndex, Element.getChildrenSize]
      rw [if_pos h, max_comm]
    show E.children.take (spliceIndex E.children.length i)
        ++ (reconstructChildren xs E.key ctr).1
        ++ E.children.drop (spliceIndex E.children.length i) = _
    rw [hpos]
  · intro h
    have hpos : spliceIndex E.children.length i = E.children.length := by
      simp only [Element.getChildrenSize] at h
      simp only [spliceIndex]
      split_ifs <;> omega
    show E.children.take (spliceIndex E.children.length i)
        ++ (reconstructChildren xs E.key ctr).1
        ++ E.children.drop (spliceIndex E.children.length i) = _
    rw [hpos, List.take_length, List.drop_length, List.append_nil]

theorem insert_splice_semantics_witness :
    ((Element.mk (.user "e") none "element" []
      [.text (.user "a") (some (.user "e")) "text" "x",
       .text (.user "b") (some (.user "e")) "text" "y",
       .text (.user "c") (some (.user "e")) "text" "z"]).insert (-1)
        [.text (.user "x") none "text" "w"] 0).1.getChildrenKeys
      = [NodeKey.user "a", .user "b", .user "x", .user "c"] := by
  have h := (insert_splice_semantics (Element.mk (.user "e") none "element" []
      [.text (.user "a") (some (.user "e")) "text" "x",
       .text (.user "b") (some (.user "e")) "text" "y",
       .text (.user "c") (some (.user "e")) "text" "z"])
    [.text (.user "x") none "text" "w"] (-1) 0).1 (by decide)
  simp only [Element.getChildrenKeys, h]
  decide

/-- The children.every(isEmpty) loop succeeds iff every child is
recursively empty. -/
theorem isEmptyAll_iff (cs : List Node) :
    isEmptyAll cs = true ↔ ∀ c ∈ cs, Node.isEmpty c = true := by
  induction cs with
  | nil => simp [isEmptyAll]
  | cons c rest ih => simp [isEmptyAll, ih]

/-- C8: isEmpty() is the recursive emptiness predicate: true iff the
Element has zero children or every one of its children is itself
recursively empty — not a plain zero-length check. -/
theorem isEmpty_recursive (E : Element) :
    E.isEmpty = true ↔ (E.children = [] ∨ ∀ c ∈ E.children, c.isEmpty = true) := by
  simp only [Element.isEmpty, Element.toNode, Node.isEmpty, Bool.or_eq_true,
    isEmptyAll_iff, beq_iff_eq, List.length_eq_zero]

/-- C9: toJSON(false) has an empty children field while size still equals
the true child count; toJSON(true) carries the recursively serialized
children. -/
theorem toJSON_shallow_size (E : Element) :
    (E.toJSON false).children = [] ∧
    (E.toJSON false).size = E.getChildrenSize ∧
    (E.toJSON true).children = toJSONList E.children ∧
    (E.toJSON true).size = E.getChildrenSize :=
  ⟨rfl, rfl, rfl, rfl⟩

theorem containsList_iff (keys : List NodeKey) (cs : List Node)
    (H : ∀ c ∈ cs, (Node.containsKeys c keys = true ↔ ∃ k ∈ c.descKeys, k ∈ keys)) :
    (containsList cs keys = true ↔ ∃ k ∈ descKeysList cs, k ∈ keys) := by
  induction cs with
  | nil => simp [containsList, descKeysList]
  | cons c rest ih =>
      simp only [containsList, descKeysList, Bool.or_eq_true]
      rw [H c (List.mem_cons_self c rest),
        ih (fun x hx => H x (List.mem_cons_of_mem c hx))]
      simp only [List.mem_cons, List.mem_append, List.elem_eq_mem, decide_eq_true_eq]
      constructor
      · rintro ((h | ⟨k, hk, hin⟩) | ⟨k, hk, hin⟩)
        · exact ⟨c.key, Or.inl rfl, h⟩
        · exact ⟨k, Or.inr (Or.inl hk), hin⟩
        · exact ⟨k, Or.inr (Or.inr hk), hin⟩
      · rintro ⟨k, (hk | hk | hk), hin⟩
        · exact Or.inl (Or.inl (hk ▸ hin))
        · exact Or.inl (Or.inr ⟨k, hk, hin⟩)
        · exact Or.inr ⟨k, hk, hin⟩

theorem containsKeys_iff :
    ∀ (n : Node) (keys : List NodeKey),
      n.containsKeys keys = true ↔ (keys ≠ [] ∧ ∃ k ∈ n.descKeys, k ∈ keys) := by
  intro n
  induction n using Node.treeInduction with
  | htext k p t s => intro keys; simp [Node.containsKeys, Node.descKeys]
  | helem k p t st cs ih =>
      intro keys
      by_cases hne : keys = []
      · subst hne; simp [Node.containsKeys]
      · have hie : ¬(keys.isEmpty = true) := by
          simpa [List.isEmpty_iff] using hne
        simp only [Node.containsKeys, if_neg hie, Node.descKeys]
        rw [containsList_iff keys cs
          (fun c hc => ((ih c hc keys).trans (and_iff_right hne)))]
        exact (and_iff_right hne).symm

/-- C6: contains(...keys) is false on an empty key set, and otherwise
true iff some direct or transitive descendant child of E has a key in the
key set. -/
theorem contains_spec (E : Element) (keys : List NodeKey) :
    E.contains keys = true ↔ (keys ≠ [] ∧ ∃ k ∈ descKeysList E.children, k ∈ keys) := by
  have h := containsKeys_iff E.toNode keys
  simpa only [Element.contains, Element.toNode, Node.descKeys] using h

theorem find?_key_eq_of_nodup {cs : List Node} {c2 : Node} {k : NodeKey}
    (hnd : (cs.map Node.key).Nodup) (hmem : c2 ∈ cs) (hk : c2.key = k) :
    cs.find? (fun x => x.key == k) = some c2 := by
  induction cs with
  | nil => cases hmem
  | cons a rest ih =>
      rcases List.mem_cons.mp hmem with h | h
      · subst h
        have ha : (c2.key == k) = true := by simpa using hk
        simp [List.find?_cons, ha]
      · have hnotin : a.key ∉ rest.map Node.key := (List.nodup_cons.mp hnd).1
        have hkey : a.key ≠ k := by
          intro he
          exact hnotin (by rw [he, ← hk]; exact List.mem_map_of_mem Node.key h)
        have ha : (a.key == k) = false := by simpa using hkey
        simp only [List.find?_cons, ha]
        exact ih (List.nodup_cons.mp hnd).2 h

theorem forall_of_compareChildren {cs others : List Node}
    (h : compareChildren cs others = true) :
    ∀ c ∈ cs, ∃ c2 ∈ others, c2.key = c.key ∧ Node.compare c c2 = true := by
  induction cs with
  | nil => intro c hc; cases hc
  | cons c rest ih =>
      simp only [compareChildren, Bool.and_eq_true] at h
      intro x hx
      rcases List.mem_cons.mp hx with he | he
      · subst he
        cases hf : List.find? (fun c2 => c2.key == x.key) others with
        | none => rw [hf] at h; cases h.1
        | some c2 =>
            rw [hf] at h
            exact ⟨c2, List.mem_of_find?_eq_some hf,
              by simpa using List.find?_some hf, h.1⟩
      · exact ih h.2 x he

theorem compareChildren_of_forall {cs others : List Node}
    (hnd : (others.map Node.key).Nodup)
    (H : ∀ c ∈ cs, ∃ c2 ∈ others, c2.key = c.key ∧ Node.compare c c2 = true) :
    compareChildren cs others = true := by
  induction cs with
  | nil => rfl
  | cons c rest ih =>
      obtain ⟨c2, hmem, hkey, hcmp⟩ := H c (List.mem_cons_self c rest)
      simp only [compareChildren, Bool.and_eq_true]
      refine ⟨?_, ih (fun x hx => H x (List.mem_cons_of_mem c hx))⟩
      rw [find?_key_eq_of_nodup hnd hmem hkey]
      exact hcmp

/-- C3 counterexample: the claim's "there exists a child of other with the
same key that compares equal" reading fails when `other`'s children carry
duplicate keys — `findIndex` only ever consults the first child with a
matching key.  Here both children of `this` have key "k" and content "x";
`other` has two children with key "k", contents "y" and "x".  The base
comparison, style equality and child counts all agree and every child of
`this` has an equal-comparing same-key partner in `other`, yet `compare`
returns false. -/
theorem compare_key_matched_counterexample :
    (Element.mk (.user "e") none "p" []
      [.text (.user "k") (some (.user "e")) "text" "x",
       .text (.user "k") (some (.user "e")) "text" "x"]).ty
      = (Element.mk (.user "f") none "p" []
      [.text (.user "k") (some (.user "f")) "text" "y",
       .text (.user "k") (some (.user "f")) "text" "x"]).ty ∧
    styleIsEqual
      (Element.mk (.user "e") none "p" []
        [.text (.user "k") (some (.user "e")) "text" "x",
         .text (.user "k") (some (.user "e")) "text" "x"]).style
      (Element.mk (.user "f") none "p" []
        [.text (.user "k") (some (.user "f")) "text" "y",
         .text (.user "k") (some (.user "f")) "text" "x"]).style = true ∧
    (Element.mk (.user "e") none "p" []
      [.text (.user "k") (some (.user "e")) "text" "x",
       .text (.user "k") (some (.user "e")) "text" "x"]).children.length
      = (Element.mk (.user "f") none "p" []
      [.text (.user "k") (some (.user "f")) "text" "y",
       .text (.user "k") (some (.user "f")) "text" "x"]).children.length ∧
    (∀ c ∈ (Element.mk (.user "e") none "p" []
      [.text (.user "k") (some (.user "e")) "text" "x",
       .text (.user "k") (some (.user "e")) "text" "x"]).children,
      ∃ c2 ∈ (Element.mk (.user "f") none "p" []
      [.text (.user "k") (some (.user "f")) "text" "y",
       .text (.user "k") (some (.user "f")) "text" "x"]).children,
        c2.key = c.key ∧ Node.compare c c2 = true) ∧
    (Element.mk (.user "e") none "p" []
      [.text (.user "k") (some (.user "e")) "text" "x",
       .text (.user "k") (some (.user "e")) "text" "x"]).compare
      (Element.mk (.user "f") none "p" []
      [.text (.user "k") (some (.user "f")) "text" "y",
       .text (.user "k") (some (.user "f")) "text" "x"]) = false := by
  decide

/-- C3 (amended): compare matches children by key, not by position —
provided `other`'s children have pairwise-distinct keys (the document-wide
key-uniqueness assumption; the counterexample shows the restriction is
necessary).  For two Elements passing the base Node comparison, with
deeply equal style maps and equal child counts, compare returns true iff
every child of `this` has a same-key child of `other` comparing equal to
it; in particular identically-keyed pairwise-equal children in different
physical orders still compare equal. -/
theorem compare_key_matched (e other : Element)
    (hbase : e.ty = other.ty)
    (hstyle : styleIsEqual e.style other.style = true)
    (hlen : e.children.length = other.children.length)
    (hnd : (other.children.map Node.key).Nodup) :
    e.compare other = true ↔
      ∀ c ∈ e.children, ∃ c2 ∈ other.children,
        c2.key = c.key ∧ Node.compare c c2 = true := by
  simp only [Element.compare, Element.toNode, Node.compare, Bool.and_eq_true]
  rw [show (e.ty == other.ty) = true by simpa using hbase,
    show (other.children.length == e.children.length) = true by
      simpa using hlen.symm, hstyle]
  simp only [true_and, and_true]
  exact ⟨forall_of_compareChildren, fun H => compareChildren_of_forall hnd H⟩

theorem compare_key_matched_witness :
    (Element.mk (.user "e") none "p" []
      [.text (.user "a") (some (.user "e")) "text" "x",
       .text (.user "b") (some (.user "e")) "text" "y"]).compare
      (Element.mk (.user "f") none "p" []
      [.text (.user "b") (some (.user "f")) "text" "y",
       .text (.user "a") (some (.user "f")) "text" "x"]) = true :=
  (compare_key_matched
    (Element.mk (.user "e") none "p" []
      [.text (.user "a") (some (.user "e")) "text" "x",
       .text (.user "b") (some (.user "e")) "text" "y"])
    (Element.mk (.user "f") none "p" []
      [.text (.user "b") (some (.user "f")) "text" "y",
       .text (.user "a") (some (.user "f")) "text" "x"])
    rfl (by decide) rfl (by decide)).mpr (by decide)

theorem styleIsEqual_refl (st : ElementStyle) : styleIsEqual st st = true := by
  simp [styleIsEqual, List.all_eq_true]

theorem wfTagsList_iff (cs : List Node) :
    wfTagsList cs = true ↔ ∀ c ∈ cs, Node.wfTags c = true := by
  induction cs with
  | nil => simp [wfTagsList]
  | cons c rest ih => simp [wfTagsList, ih]

theorem nodupDeepList_iff (cs : List Node) :
    nodupDeepList cs = true ↔ ∀ c ∈ cs, Node.nodupDeep c = true := by
  induction cs with
  | nil => simp [nodupDeepList]
  | cons c rest ih => simp [nodupDeepList, ih]

theorem nodupKeysB_iff (cs : List Node) :
    nodupKeysB cs = true ↔ (cs.map Node.key).Nodup := by
  induction cs with
  | nil => simp [nodupKeysB]
  | cons c rest ih =>
      simp only [nodupKeysB, Bool.and_eq_true, ih, List.map_cons, List.nodup_cons,
        List.all_eq_true, bne_iff_ne, List.mem_map]
      constructor
      · rintro ⟨h1, h2⟩
        refine ⟨?_, h2⟩
        rintro ⟨x, hx, hkx⟩
        exact h1 x hx hkx
      · rintro ⟨h1, h2⟩
        exact ⟨fun x hx hkx => h1 ⟨x, hx, hkx⟩, h2⟩

theorem forall₂_exists {R : Node → Node → Prop} {rs cs : List Node}
    (h : List.Forall₂ R rs cs) : ∀ r ∈ rs, ∃ c ∈ cs, R r c := by
  induction h with
  | nil => intro r hr; cases hr
  | cons hR hrest ih =>
      intro r hr
      rcases List.mem_cons.mp hr with he | he
      · subst he; exact ⟨_, List.mem_cons_self _ _, hR⟩
      · obtain ⟨c, hc, hRc⟩ := ih r he
        exact ⟨c, List.mem_cons_of_mem _ hc, hRc⟩

/-- The children built by the constructor from the serialized forms of
`cs` correspond to `cs` pointwise: same key and comparing equal. -/
theorem constructList_pointwise (cs : List Node) (pk : NodeKey) (ctr : Nat)
    (H : ∀ c ∈ cs, ∀ par' ctr',
      Node.compare (constructWith (c.toJSON true) par' ctr').1 c = true) :
    List.Forall₂ (fun r c => r.key = c.key ∧ Node.compare r c = true)
      (constructList (toJSONList cs) pk ctr).1 cs := by
  induction cs with
  | nil => exact List.Forall₂.nil
  | cons c rest ih =>
      obtain ⟨hctr, hkey, _⟩ := constructWith_toJSON_spec c (some pk) ctr
      simp only [toJSONList, constructList_cons, hctr]
      exact List.Forall₂.cons ⟨hkey, H c (List.mem_cons_self c rest) (some pk) ctr⟩
        (ih (fun x hx => H x (List.mem_cons_of_mem c hx)))

/-- Reconstructing any tag-well-formed node with no duplicate keys at any
depth from its deep serialized form yields a node comparing equal to the
original. -/
theorem reconstruct_compare :
    ∀ n : Node, Node.wfTags n = true → Node.nodupDeep n = true →
      ∀ par ctr, Node.compare (constructWith (n.toJSON true) par ctr).1 n = true := by
  intro n
  induction n using Node.treeInduction with
  | htext k p t s =>
      intro hwf _ par ctr
      simp only [Node.wfTags, beq_iff_eq] at hwf
      subst hwf
      simp [Node.toJSON, constructWith, Node.compare]
  | helem k p t st cs ih =>
      intro hwf hnd par ctr
      simp only [Node.wfTags, Bool.and_eq_true, bne_iff_ne] at hwf
      obtain ⟨ht, hcs⟩ := hwf
      simp only [Node.nodupDeep, Bool.and_eq_true] at hnd
      obtain ⟨hnk, hndl⟩ := hnd
      have hwfm := (wfTagsList_iff cs).mp hcs
      have hndm := (nodupDeepList_iff cs).mp hndl
      have H : ∀ c ∈ cs, ∀ par' ctr',
          Node.compare (constructWith (c.toJSON true) par' ctr').1 c = true :=
        fun c hc par' ctr' => ih c hc (hwfm c hc) (hndm c hc) par' ctr'
      have hf2 := constructList_pointwise cs k ctr H
      have hcond : (some t ≠ some "text") := by simpa using ht
      simp only [Node.toJSON, constructWith, if_pos hcond, Option.getD_some,
        Option.isNone_some, Bool.false_eq_true, if_false, if_true]
      simp only [Node.compare, Bool.and_eq_true]
      refine ⟨⟨⟨beq_self_eq_true t, styleIsEqual_refl st⟩, ?_⟩, ?_⟩
      · have hlen := List.Forall₂.length_eq hf2
        simpa using hlen.symm
      · exact compareChildren_of_forall ((nodupKeysB_iff cs).mp hnk)
          (fun r hr => by
            obtain ⟨c, hc, hkey, hcmp⟩ := forall₂_exists hf2 r hr
            exact ⟨c, hc, hkey.symm, hcmp⟩)

/-- C4: reconstructing an Element from E.toJSON(true) via the standard
constructor yields an Element comparing equal to E, for every E whose
children contain no duplicate keys (at all depths).  The `wfTags`
hypothesis restricts to reachable Element states: every child ever stored
by the constructor, appendChild or insert went through the
`Node.create` type-tag dispatch, so text children carry tag "text" and
element children do not.  The base Node / Text serialization and
construction are modelled from the spec (node.ts / text.ts are not part
of the sources). -/
theorem toJSON_roundtrip_compare (E : Element) (ctr : Nat)
    (hwf : ∀ c ∈ E.children, Node.wfTags c = true)
    (hnd : E.nodupDeep = true) :
    (Element.create (E.toJSON true) ctr).1.compare E = true := by
  simp only [Element.nodupDeep, Bool.and_eq_true] at hnd
  obtain ⟨hnk, hndl⟩ := hnd
  have hndm := (nodupDeepList_iff E.children).mp hndl
  have H : ∀ c ∈ E.children, ∀ par' ctr',
      Node.compare (constructWith (c.toJSON true) par' ctr').1 c = true :=
    fun c hc par' ctr' => reconstruct_compare c (hwf c hc) (hndm c hc) par' ctr'
  have hf2 := constructList_pointwise E.children E.key ctr H
  show Node.compare
      (Element.create (Element.toJSON E true) ctr).1.toNode E.toNode = true
  simp only [Element.toJSON, Element.toNode, Node.toJSON, Element.create,
    Option.getD_some, Option.isNone_some, Bool.false_eq_true, if_false, if_true]
  simp only [Node.compare, Bool.and_eq_true]
  refine ⟨⟨⟨beq_self_eq_true E.ty, styleIsEqual_refl E.style⟩, ?_⟩, ?_⟩
  · have hlen := List.Forall₂.length_eq hf2
    simpa using hlen.symm
  · exact compareChildren_of_forall ((nodupKeysB_iff E.children).mp hnk)
      (fun r hr => by
        obtain ⟨c, hc, hkey, hcmp⟩ := forall₂_exists hf2 r hr
        exact ⟨c, hc, hkey.symm, hcmp⟩)

theorem toJSON_roundtrip_compare_witness :
    (∀ c ∈ (Element.mk (.user "e") none "element" [("color", .str "red")]
      [.text (.user "a") (some (.user "e")) "text" "x",
       .element (.user "d") (some (.user "e")) "div" []
         [.text (.user "b") (some (.user "d")) "text" "y"]]).children,
      Node.wfTags c = true) ∧
    (Element.mk (.user "e") none "element" [("color", .str "red")]
      [.text (.user "a") (some (.user "e")) "text" "x",
       .element (.user "d") (some (.user "e")) "div" []
         [.text (.user "b") (some (.user "d")) "text" "y"]]).nodupDeep = true ∧
    (Element.create ((Element.mk (.user "e") none "element" [("color", .str "red")]
      [.text (.user "a") (some (.user "e")) "text" "x",
       .element (.user "d") (some (.user "e")) "div" []
         [.text (.user "b") (some (.user "d")) "text" "y"]]).toJSON true) 0).1.compare
      (Element.mk (.user "e") none "element" [("color", .str "red")]
      [.text (.user "a") (some (.user "e")) "text" "x",
       .element (.user "d") (some (.user "e")) "div" []
         [.text (.user "b") (some (.user "d")) "text" "y"]]) = true :=
  ⟨by decide, by decide,
    toJSON_roundtrip_compare
      (Element.mk (.user "e") none "element" [("color", .str "red")]
        [.text (.user "a") (some (.user "e")) "text" "x",
         .element (.user "d") (some (.user "e")) "div" []
           [.text (.user "b") (some (.user "d")) "text" "y"]]) 0
      (by decide) (by decide)⟩

/-- Induction over options trees: the motive propagates to every child
descriptor. -/
theorem NodeOptions.optionsInduction {motive : NodeOptions → Prop}
    (h : ∀ k p t tx st sz cs, (∀ o ∈ cs, motive o) →
      motive (.mk k p t tx st sz cs)) :
    ∀ o, motive o := fun o =>
  @NodeOptions.rec motive (fun l => ∀ o ∈ l, motive o)
    h
    (by intro o ho; cases ho)
    (fun o os ho hos x hx => by
      rcases List.mem_cons.mp hx with he | he
      · exact he ▸ ho
      · exact hos x he)
    o

/-- Every node built through the polymorphic dispatch path is
tag-well-formed: the dispatch sends exactly the "text"-tagged descriptors
to the `Text` constructor (which stamps tag "text") and all others to the
`Element` constructor (which never produces tag "text").  This justifies
the well-formedness hypothesis of the round-trip theorem: it is an
invariant of every reachable Element, since all stored children are built
by this path. -/
theorem constructWith_wfTags :
    ∀ (o : NodeOptions) (par : Option NodeKey) (ctr : Nat),
      Node.wfTags (constructWith o par ctr).1 = true := by
  intro o
  induction o using NodeOptions.optionsInduction with
  | h k p t tx st sz cs ih =>
      intro par ctr
      by_cases hcond : t ≠ some "text"
      · have hlist : ∀ (l : List NodeOptions) (pk : NodeKey) (ctr' : Nat),
            (∀ x ∈ l, ∀ par' ctr'',
              Node.wfTags (constructWith x par' ctr'').1 = true) →
            wfTagsList (constructList l pk ctr').1 = true := by
          intro l
          induction l with
          | nil => intro pk ctr' _; rfl
          | cons x rest ihl =>
              intro pk ctr' H
              simp only [constructList_cons, wfTagsList, Bool.and_eq_true]
              exact ⟨H x (List.mem_cons_self x rest) (some pk) _,
                ihl pk _ (fun y hy => H y (List.mem_cons_of_mem x hy))⟩
        have hty : (t.getD "element") ≠ "text" := by
          cases t with
          | none => simp
          | some s => simpa using hcond
        simp only [constructWith, if_pos hcond, Node.wfTags, Bool.and_eq_true,
          bne_iff_ne]
        exact ⟨hty, hlist cs _ _ (fun x hx par' ctr'' => ih x hx par' ctr'')⟩
      · have ht : t = some "text" := by
          by_contra hne
          exact hcond hne
        subst ht
        simp [constructWith, Node.wfTags]

/-- In particular every child stored by the `Element` constructor is
tag-well-formed. -/
theorem create_children_wfTags (o : NodeOptions) (ctr : Nat) :
    ∀ c ∈ (Element.create o ctr).1.children, Node.wfTags c = true := by
  cases o with
  | mk k p t tx st sz cs =>
      have hlist : ∀ (l : List NodeOptions) (pk : NodeKey) (ctr' : Nat),
          ∀ c ∈ (constructList l pk ctr').1, Node.wfTags c = true := by
        intro l
        induction l with
        | nil => intro pk ctr' c hc; cases hc
        | cons x rest ihl =>
            intro pk ctr' c hc
            simp only [constructList_cons] at hc
            rcases List.mem_cons.mp hc with he | he
            · exact he ▸ constructWith_wfTags x (some pk) ctr'
            · exact ihl pk _ c he
      intro c hc
      exact hlist cs _ _ c hc
